import Mathlib

/-!
A shallow embedding of the core of the `rfc` command-line tool: the document
identity model, the URL construction and version-resolution logic of
`src/api/rfc_editor.rs`, and the on-disk cache of `src/cache/storage.rs`.
Network collaborators (HTTP GET, the datatracker metadata endpoint) are
modelled as oracles; the filesystem under the cache's `documents` directory is
modelled as an association list from file name to file state.
-/

namespace Rfc

/-! ### Decimal rendering

`format!("{}", num)` renders a `u32` in decimal.  `digitsRevFuel` produces the
decimal digits least-significant first, with an explicit fuel argument (the
number itself plus one always suffices) so the function is structurally
recursive and kernel-reducible. -/

def digitsRevFuel : Nat → Nat → List Char
  | 0, _ => []
  | fuel + 1, n =>
    if n < 10 then [Nat.digitChar n]
    else Nat.digitChar (n % 10) :: digitsRevFuel fuel (n / 10)

def natDigits (n : Nat) : List Char :=
  (digitsRevFuel (n + 1) n).reverse

def natStr (n : Nat) : String :=
  ⟨natDigits n⟩

/-- Numeric value of a digit character. -/
def digitVal (c : Char) : Nat :=
  c.toNat - 48

/-- Value of a digit list, least-significant digit first. -/
def valRev : List Char → Nat
  | [] => 0
  | c :: cs => digitVal c + 10 * valRev cs

/-- Value of a digit list, most-significant digit first. -/
def valOfDigits (l : List Char) : Nat :=
  valRev l.reverse

/-! ### Generic last-separator helpers

`afterLast ch l` is the part of `l` after the last occurrence of `ch`
(`none` when `ch` does not occur); `beforeLast ch l` is the part before it.
These back the embeddings of Rust's `str::rfind`-based suffix slicing and
`Path::file_stem`. -/

def afterLast (ch : Char) : List Char → Option (List Char)
  | [] => none
  | c :: cs =>
    match afterLast ch cs with
    | some s => some s
    | none => if c = ch then some cs else none

def beforeLast (ch : Char) : List Char → Option (List Char)
  | [] => none
  | c :: cs =>
    match beforeLast ch cs with
    | some p => some (c :: p)
    | none => if c = ch then some [] else none

/-! ### Document identity model

The type itself lives in `src/models/document.rs`, which is not among the
provided sources; only its re-export (`src/models/mod.rs`) is.  The variants,
canonical names, extensions and the parser are therefore modelled from the
spec. -/

/-- Modelled from the spec: the Document Identity type of the Identity Model
(`src/models/document.rs` is not among the provided sources).  A closed
variant with a Published document carrying a number and a Draft carrying a
name string; equality is structural. -/
inductive DocumentType
  | Rfc (num : Nat)
  | Draft (name : String)
deriving DecidableEq, Repr

/-- Modelled from the spec: the Representation type of the Identity Model
(`src/models/document.rs` is not among the provided sources).  Two cases:
plain text and hypertext. -/
inductive Format
  | Text
  | Html
deriving DecidableEq, Repr

/-- Modelled from the spec: `Format::extension` (`src/models/document.rs` is
not among the provided sources).  Each representation maps to a file-name
extension, `ext ∈ {txt, html}`. -/
def Format.extension : Format → String
  | .Text => "txt"
  | .Html => "html"

/-- Modelled from the spec: `DocumentType::name` (`src/models/document.rs` is
not among the provided sources).  The canonical name is `rfc<number>` for
Published and the literal draft name for Draft. -/
def DocumentType.name : DocumentType → String
  | .Rfc num => "rfc" ++ natStr num
  | .Draft name => name

/-- Modelled from the spec: the Identity Model's parser used by enumeration
(`src/models/document.rs` is not among the provided sources).  A base name
starting with `draft` parses as a Draft with the name verbatim; `rfc`
followed by a non-empty run of ASCII digits parses as the Published document
with that number; anything else is not a valid identity. -/
def DocumentType.parse (s : String) : Option DocumentType :=
  match s.data with
  | 'd' :: 'r' :: 'a' :: 'f' :: 't' :: _ => some (.Draft s)
  | 'r' :: 'f' :: 'c' :: rest =>
    if rest ≠ [] ∧ rest.all (·.isDigit) then some (.Rfc (valOfDigits rest))
    else none
  | _ => none

/-! ### URL construction (`src/api/rfc_editor.rs`) -/

/-- `DocumentFetcher::html_url`. -/
def html_url : DocumentType → String
  | .Rfc num => "https://www.rfc-editor.org/rfc/rfc" ++ natStr num ++ ".html"
  | .Draft name => "https://datatracker.ietf.org/doc/html/" ++ name

/-- `DocumentFetcher::text_url`. -/
def text_url : DocumentType → String
  | .Rfc num => "https://www.rfc-editor.org/rfc/rfc" ++ natStr num ++ ".txt"
  | .Draft name => "https://www.ietf.org/archive/id/" ++ name ++ ".txt"

/-- `DocumentFetcher::has_version_suffix`: the slice after the last `'-'`
(found by `rfind`) is non-empty and all ASCII digits. -/
def has_version_suffix (name : String) : Bool :=
  match afterLast '-' name.data with
  | some suffix => !suffix.isEmpty && suffix.all (·.isDigit)
  | none => false

/-! ### Version resolution (`src/api/rfc_editor.rs`)

The datatracker metadata endpoint is the external collaborator of
`resolve_draft_version`; it is modelled as an oracle from the request URL to
the observable outcome of the `send`/status/`json` sequence. -/

/-- `DraftInfo`: the deserialized datatracker response, an optional `rev`. -/
structure DraftInfo where
  rev : Option String
deriving DecidableEq, Repr

/-- Outcome of querying the metadata endpoint at a URL: the request can fail
to reach the endpoint (`send` error), the response can carry a non-success
status, the body can fail to parse as `DraftInfo`, or a `DraftInfo` is
obtained. -/
inductive MetaResponse
  | sendError
  | httpError
  | invalidJson
  | ok (info : DraftInfo)
deriving DecidableEq, Repr

/-- Errors of `resolve_draft_version`: the context `"Failed to query draft
info"` on a send error, the `"Draft not found: {name}"` bail on a non-success
status, and the context `"Failed to parse draft info"` on a parse failure. -/
inductive ResolveError
  | queryFailed
  | draftNotFound (name : String)
  | infoParseFailed
deriving DecidableEq, Repr

/-- URL queried by `resolve_draft_version` for a draft name. -/
def doc_json_url (name : String) : String :=
  "https://datatracker.ietf.org/doc/" ++ name ++ "/doc.json"

/-- `DocumentFetcher::resolve_draft_version`, with the metadata endpoint as an
oracle `meta`. -/
def resolve_draft_version (meta : String → MetaResponse) :
    DocumentType → Except ResolveError DocumentType
  | .Rfc num => .ok (.Rfc num)
  | .Draft name =>
    if has_version_suffix name then .ok (.Draft name)
    else
      match meta (doc_json_url name) with
      | .sendError => .error .queryFailed
      | .httpError => .error (.draftNotFound name)
      | .invalidJson => .error .infoParseFailed
      | .ok info =>
        match info.rev with
        | some rev => .ok (.Draft (name ++ "-" ++ rev))
        | none => .ok (.Draft name)

/-! ### Fetch with text→hypertext fallback (`src/api/rfc_editor.rs`)

`fetch_content` is the content collaborator; it is modelled as an oracle
`net` from a URL to either the body (`.ok`) or an error message (`.error`),
covering network errors, non-success statuses and body-read errors alike.
`fetch` additionally returns the list of content URLs it requested, in order,
making the collaborator call count explicit. -/

/-- Error of `DocumentFetcher::fetch`: a resolution failure propagated
unchanged, or the composite failure whose context
`"Plain text fetch failed ({text_err}); HTML fallback also failed"` wraps the
hypertext error — it carries both underlying failures. -/
inductive FetchError
  | resolveFailed (e : ResolveError)
  | bothFailed (textError : String) (htmlError : String)
deriving DecidableEq, Repr

/-- `DocumentFetcher::fetch`: resolve, try the text URL, fall back to the
HTML URL.  The second component is the list of content URLs requested. -/
def fetch (meta : String → MetaResponse) (net : String → Except String String)
    (doc : DocumentType) :
    Except FetchError (String × Format) × List String :=
  match resolve_draft_version meta doc with
  | .error e => (.error (.resolveFailed e), [])
  | .ok d =>
    match net (text_url d) with
    | .ok content => (.ok (content, .Text), [text_url d])
    | .error textErr =>
      match net (html_url d) with
      | .ok content => (.ok (content, .Html), [text_url d, html_url d])
      | .error htmlErr =>
        (.error (.bothFailed textErr htmlErr), [text_url d, html_url d])

/-! ### Cache store (`src/cache/storage.rs`)

The cache's `documents` directory is modelled as an association list from
file name to file state; a file on disk is either readable with string
content, or present but unreadable (permission failure, or bytes that do not
decode as UTF-8 — both make `fs::read_to_string` return `Err`). -/

/-- State of a file on disk as observed by `fs::read_to_string`. -/
inductive FileState
  | readable (content : String)
  | unreadable
deriving DecidableEq, Repr

/-- The `documents` directory: file name (with extension) to file state. -/
abbrev DocumentsDir := List (String × FileState)

/-- File name of a cached document inside the `documents` directory, as built
by `CacheManager::document_path`: `{doc.name()}.{format.extension()}`. -/
def fileName (doc : DocumentType) (fmt : Format) : String :=
  doc.name ++ "." ++ fmt.extension

/-- `CacheManager::document_path`: the full path
`{cache_dir}/documents/{doc.name()}.{format.extension()}`. -/
def document_path (cacheDir : String) (doc : DocumentType) (fmt : Format) :
    String :=
  cacheDir ++ "/documents/" ++ fileName doc fmt

/-- Directory lookup: the state of the file with the given name, if any. -/
def fsFind (fs : DocumentsDir) (name : String) : Option FileState :=
  (fs.find? (fun p => p.1 = name)).map (·.2)

/-- `Path::exists` for a file in the `documents` directory. -/
def fsExists (fs : DocumentsDir) (name : String) : Bool :=
  (fs.find? (fun p => p.1 = name)).isSome

/-- `fs::write`: create or overwrite the file with readable content. -/
def fsWrite (fs : DocumentsDir) (name : String) (content : String) :
    DocumentsDir :=
  (name, .readable content) :: fs.filter (fun p => ¬(p.1 = name))

/-- `fs::remove_file`: delete the file with the given name. -/
def fsDelete (fs : DocumentsDir) (name : String) : DocumentsDir :=
  fs.filter (fun p => ¬(p.1 = name))

/-- `CacheManager::get_document`: `fs::read_to_string(path).ok()` — content
when the file exists and is readable, `none` otherwise. -/
def get_document (fs : DocumentsDir) (doc : DocumentType) (fmt : Format) :
    Option String :=
  match fsFind fs (fileName doc fmt) with
  | some (.readable content) => some content
  | _ => none

/-- `CacheManager::store_document`: write the content at the document's
path, overwriting any existing entry. -/
def store_document (fs : DocumentsDir) (doc : DocumentType) (fmt : Format)
    (content : String) : DocumentsDir :=
  fsWrite fs (fileName doc fmt) content

/-- `CacheManager::clear_cache`: remove the cache root recursively and
recreate it empty — the `documents` directory afterwards has no entries. -/
def clear_cache (_fs : DocumentsDir) : DocumentsDir :=
  []

/-- `CacheManager::remove`: delete the HTML entry if it exists, then the text
entry if it exists; return the updated directory and whether anything was
deleted. -/
def remove (fs : DocumentsDir) (doc : DocumentType) : DocumentsDir × Bool :=
  let htmlName := fileName doc .Html
  let textName := fileName doc .Text
  let removedHtml := fsExists fs htmlName
  let fs₁ := if removedHtml then fsDelete fs htmlName else fs
  let removedText := fsExists fs₁ textName
  let fs₂ := if removedText then fsDelete fs₁ textName else fs₁
  (fs₂, removedHtml || removedText)

/-- `Path::file_stem` on a file name: `none` for the empty name; the whole
name when there is no dot, or when the only dot is the leading one;
otherwise the portion before the final dot. -/
def fileStem (s : String) : Option String :=
  match s.data with
  | [] => none
  | c :: cs =>
    if c = '.' then
      match beforeLast '.' cs with
      | some p => some ⟨'.' :: p⟩
      | none => some s
    else
      match beforeLast '.' (c :: cs) with
      | some p => some ⟨p⟩
      | none => some s

/-- The base name of a directory entry parsed back into an identity:
`file_stem` then `DocumentType::parse`. -/
def stemParse (name : String) : Option DocumentType :=
  match fileStem name with
  | some stem => DocumentType.parse stem
  | none => none

/-- One step of `CacheManager::list_cached`'s loop: parse the entry's stem
and push the identity if it is new. -/
def listStep (docs : List DocumentType) (p : String × FileState) :
    List DocumentType :=
  match stemParse p.1 with
  | some d => if docs.contains d then docs else docs ++ [d]
  | none => docs

/-- `CacheManager::list_cached`: fold over the directory entries, collecting
each distinct parsed identity once. -/
def list_cached (fs : DocumentsDir) : List DocumentType :=
  fs.foldl listStep []

/-! ### Lemmas about decimal rendering -/

lemma digitVal_digitChar : ∀ k, k < 10 → digitVal (Nat.digitChar k) = k := by
  decide

lemma isDigit_digitChar : ∀ k, k < 10 → (Nat.digitChar k).isDigit = true := by
  decide

lemma valRev_digitsRevFuel :
    ∀ fuel n, n < fuel → valRev (digitsRevFuel fuel n) = n := by
  intro fuel
  induction fuel with
  | zero => intro n h; omega
  | succ f ih =>
    intro n h
    by_cases h10 : n < 10
    · simp [digitsRevFuel, h10, valRev, digitVal_digitChar n h10]
    · have hdiv : n / 10 < n := Nat.div_lt_self (by omega) (by omega)
      simp only [digitsRevFuel, if_neg h10, valRev]
      rw [ih (n / 10) (by omega), digitVal_digitChar (n % 10) (by omega)]
      omega

lemma valOfDigits_natDigits (n : Nat) : valOfDigits (natDigits n) = n := by
  simp only [valOfDigits, natDigits, List.reverse_reverse]
  exact valRev_digitsRevFuel (n + 1) n (Nat.lt_succ_self n)

lemma natDigits_injective : Function.Injective natDigits := by
  intro a b hab
  have := congrArg valOfDigits hab
  rwa [valOfDigits_natDigits, valOfDigits_natDigits] at this

lemma natStr_injective : Function.Injective natStr := by
  intro a b hab
  exact natDigits_injective (congrArg String.data hab)

lemma natDigits_ne_nil (n : Nat) : natDigits n ≠ [] := by
  by_cases h10 : n < 10 <;>
    simp [natDigits, digitsRevFuel, h10]

lemma isDigit_of_mem_digitsRevFuel :
    ∀ fuel n c, c ∈ digitsRevFuel fuel n → c.isDigit = true := by
  intro fuel
  induction fuel with
  | zero => intro n c hc; simp [digitsRevFuel] at hc
  | succ f ih =>
    intro n c hc
    by_cases h10 : n < 10
    · simp [digitsRevFuel, h10] at hc
      exact hc ▸ isDigit_digitChar n h10
    · simp [digitsRevFuel, h10] at hc
      rcases hc with hc | hc
      · exact hc ▸ isDigit_digitChar (n % 10) (by omega)
      · exact ih _ _ hc

lemma isDigit_of_mem_natDigits (n : Nat) (c : Char) (hc : c ∈ natDigits n) :
    c.isDigit = true :=
  isDigit_of_mem_digitsRevFuel (n + 1) n c (List.mem_reverse.mp hc)

/-! ### Lemmas about the last-separator helpers -/

lemma afterLast_eq_none_iff (ch : Char) :
    ∀ l : List Char, afterLast ch l = none ↔ ch ∉ l := by
  intro l
  induction l with
  | nil => simp [afterLast]
  | cons c cs ih =>
    simp only [afterLast]
    cases h : afterLast ch cs with
    | some s => simp [List.mem_cons, ih.not_left.mp (by simp [h])]
    | none =>
      by_cases hc : c = ch
      · simp [hc, ih.mp h]
      · simp [hc, ih.mp h]
        exact fun h2 => hc h2.symm

lemma beforeLast_eq_none_iff (ch : Char) :
    ∀ l : List Char, beforeLast ch l = none ↔ ch ∉ l := by
  intro l
  induction l with
  | nil => simp [beforeLast]
  | cons c cs ih =>
    simp only [beforeLast]
    cases h : beforeLast ch cs with
    | some p => simp [List.mem_cons, ih.not_left.mp (by simp [h])]
    | none =>
      by_cases hc : c = ch
      · simp [hc, ih.mp h]
      · simp [hc, ih.mp h]
        exact fun h2 => hc h2.symm

lemma afterLast_append (ch : Char) (s : List Char) (hs : ch ∉ s) :
    ∀ p : List Char, afterLast ch (p ++ ch :: s) = some s := by
  intro p
  induction p with
  | nil =>
    simp [afterLast, (afterLast_eq_none_iff ch s).mpr hs]
  | cons a p ih =>
    simp [afterLast, ih]

lemma beforeLast_append (ch : Char) (s : List Char) (hs : ch ∉ s) :
    ∀ p : List Char, beforeLast ch (p ++ ch :: s) = some p := by
  intro p
  induction p with
  | nil =>
    simp [beforeLast, (beforeLast_eq_none_iff ch s).mpr hs]
  | cons a p ih =>
    simp [beforeLast, ih]

lemma afterLast_eq_some (ch : Char) :
    ∀ l s : List Char, afterLast ch l = some s →
      ch ∉ s ∧ ∃ p, l = p ++ ch :: s := by
  intro l
  induction l with
  | nil => intro s h; simp [afterLast] at h
  | cons c cs ih =>
    intro s h
    simp only [afterLast] at h
    cases hcs : afterLast ch cs with
    | some s' =>
      rw [hcs] at h
      obtain rfl : s' = s := by simpa using h
      obtain ⟨hns, p, rfl⟩ := ih _ hcs
      exact ⟨hns, c :: p, rfl⟩
    | none =>
      rw [hcs] at h
      by_cases hc : c = ch
      · simp only [hc, if_pos rfl] at h
        obtain rfl : cs = s := by simpa using h
        exact ⟨(afterLast_eq_none_iff ch cs).mp hcs, [], by simp [hc]⟩
      · simp [hc] at h

/-! ### Simple cache lemmas -/

lemma fsFind_eq_none_of_forall (fs : DocumentsDir) (name : String)
    (h : ∀ p ∈ fs, p.1 ≠ name) : fsFind fs name = none := by
  have hf : List.find? (fun p => p.1 = name) fs = none :=
    List.find?_eq_none.mpr (fun p hp => by simpa using h p hp)
  simp [fsFind, hf]

lemma get_document_eq_none_of_fsFind (fs : DocumentsDir) (doc : DocumentType)
    (fmt : Format) (h : fsFind fs (fileName doc fmt) = none) :
    get_document fs doc fmt = none := by
  simp [get_document, h]

/-! ### Claim theorems -/

/-- C3: `has_version_suffix` returns true iff the name ends in a dash
followed by one or more ASCII digits (on models of the edge cases: a
trailing bare dash has an empty digit run, a suffix with a letter has a
non-digit member, a dash-free name and the empty string admit no
decomposition). -/
theorem has_version_suffix_iff_digit_suffix (name : String) :
    has_version_suffix name = true ↔
      ∃ p ds : List Char, name.data = p ++ '-' :: ds ∧ ds ≠ [] ∧
        ∀ c ∈ ds, c.isDigit = true := by
  constructor
  · intro h
    unfold has_version_suffix at h
    cases hal : afterLast '-' name.data with
    | none => rw [hal] at h; exact absurd h (by simp)
    | some s =>
      rw [hal] at h
      obtain ⟨-, p, hp⟩ := afterLast_eq_some '-' name.data s hal
      simp only [Bool.and_eq_true, Bool.not_eq_true', List.all_eq_true,
        decide_eq_true_eq, List.isEmpty_eq_false] at h
      exact ⟨p, s, hp, h.1, fun c hc => h.2 c hc⟩
  · rintro ⟨p, ds, hdata, hne, hdig⟩
    have hnd : '-' ∉ ds := by
      intro hmem
      have := hdig '-' hmem
      simp [Char.isDigit] at this
    unfold has_version_suffix
    rw [hdata, afterLast_append '-' ds hnd p]
    simp only [Bool.and_eq_true, Bool.not_eq_true', List.all_eq_true,
      decide_eq_true_eq, List.isEmpty_eq_false]
    exact ⟨hne, hdig⟩

/-- C3 witness: the characterization applied at `"draft-foo-00"` with the
explicit decomposition `"draft-foo" ++ "-" ++ "00"`. -/
theorem has_version_suffix_iff_digit_suffix_witness :
    has_version_suffix "draft-foo-00" = true :=
  (has_version_suffix_iff_digit_suffix "draft-foo-00").mpr
    ⟨['d', 'r', 'a', 'f', 't', '-', 'f', 'o', 'o'], ['0', '0'], by decide,
      by decide, by decide⟩

/-- C4: URL construction is a pure total function of
(identity, representation): Published(n) maps to
`https://www.rfc-editor.org/rfc/rfc{n}.txt` / `.html`, and Draft(name) maps
to `https://www.ietf.org/archive/id/{name}.txt` /
`https://datatracker.ietf.org/doc/html/{name}`; checked also at the spec's
concrete examples. -/
theorem url_construction_table :
    (∀ n, text_url (.Rfc n) =
      "https://www.rfc-editor.org/rfc/rfc" ++ natStr n ++ ".txt") ∧
    (∀ n, html_url (.Rfc n) =
      "https://www.rfc-editor.org/rfc/rfc" ++ natStr n ++ ".html") ∧
    (∀ name, text_url (.Draft name) =
      "https://www.ietf.org/archive/id/" ++ name ++ ".txt") ∧
    (∀ name, html_url (.Draft name) =
      "https://datatracker.ietf.org/doc/html/" ++ name) ∧
    text_url (.Rfc 9000) = "https://www.rfc-editor.org/rfc/rfc9000.txt" ∧
    html_url (.Draft "draft-ietf-quic-transport-34") =
      "https://datatracker.ietf.org/doc/html/draft-ietf-quic-transport-34" := by
  refine ⟨fun n => rfl, fun n => rfl, fun name => rfl, fun name => rfl, ?_, ?_⟩
  · decide
  · decide

/-- C10: after clearing the cache, every lookup — in particular of any
previously stored (identity, representation) — returns absent. -/
theorem clear_cache_then_get_absent (fs : DocumentsDir) (doc : DocumentType)
    (fmt : Format) : get_document (clear_cache fs) doc fmt = none :=
  rfl

/-- C6: cache round-trip — storing content for (identity, representation)
and then looking up the same pair returns exactly that content. -/
theorem store_then_get_roundtrip (fs : DocumentsDir) (doc : DocumentType)
    (fmt : Format) (content : String) :
    get_document (store_document fs doc fmt content) doc fmt = some content := by
  simp [get_document, store_document, fsWrite, fsFind, List.find?_cons_of_pos]

/-- C7: cache lookup never errors — it returns absent exactly when the file
is missing or present but unreadable (permission failure or decode failure),
and in particular an identity never stored yields absent. -/
theorem get_document_absent_policy (fs : DocumentsDir) (doc : DocumentType)
    (fmt : Format) :
    (get_document fs doc fmt = none ↔
      fsFind fs (fileName doc fmt) = none ∨
      fsFind fs (fileName doc fmt) = some .unreadable) ∧
    ((∀ p ∈ fs, p.1 ≠ fileName doc fmt) → get_document fs doc fmt = none) := by
  constructor
  · unfold get_document
    cases h : fsFind fs (fileName doc fmt) with
    | none => simp
    | some st => cases st <;> simp
  · intro h
    exact get_document_eq_none_of_fsFind fs doc fmt
      (fsFind_eq_none_of_forall fs (fileName doc fmt) h)

/-- C7 witness: a directory holding an unrelated readable file and an
unreadable copy of the looked-up file yields absent, as does lookup in a
directory where the identity was never stored. -/
theorem get_document_absent_policy_witness :
    get_document [("rfc9000.txt", FileState.unreadable)] (.Rfc 9000)
      .Text = none ∧
    get_document [("rfc8200.txt", FileState.readable "x")] (.Rfc 9000)
      .Text = none := by
  constructor
  · exact (get_document_absent_policy
      [("rfc9000.txt", FileState.unreadable)] (.Rfc 9000) .Text).1.mpr
      (Or.inr (by decide))
  · exact (get_document_absent_policy
      [("rfc8200.txt", FileState.readable "x")] (.Rfc 9000) .Text).2
      (by decide)

/-- C2: version resolution returns Published unchanged; returns a
revision-qualified Draft unchanged for every metadata oracle (hence without
consulting the endpoint); and for an unqualified Draft it fails with the
metadata-unavailable error when the endpoint is unreachable, fails with the
document-not-found error on a non-success status, returns the identity
unchanged when the parsed response has no revision, and otherwise returns
`Draft (name ++ "-" ++ rev)` with the revision verbatim. -/
theorem resolve_draft_version_cases (meta : String → MetaResponse) :
    (∀ n, resolve_draft_version meta (.Rfc n) = .ok (.Rfc n)) ∧
    (∀ name, has_version_suffix name = true →
      resolve_draft_version meta (.Draft name) = .ok (.Draft name)) ∧
    (∀ name, has_version_suffix name = false →
      ((meta (doc_json_url name) = .sendError →
          resolve_draft_version meta (.Draft name) = .error .queryFailed) ∧
        (meta (doc_json_url name) = .httpError →
          resolve_draft_version meta (.Draft name) =
            .error (.draftNotFound name)) ∧
        (meta (doc_json_url name) = .ok ⟨none⟩ →
          resolve_draft_version meta (.Draft name) = .ok (.Draft name)) ∧
        (∀ rev, meta (doc_json_url name) = .ok ⟨some rev⟩ →
          resolve_draft_version meta (.Draft name) =
            .ok (.Draft (name ++ "-" ++ rev))))) := by
  refine ⟨fun n => rfl, fun name h => by simp [resolve_draft_version, h],
    fun name h => ⟨?_, ?_, ?_, ?_⟩⟩ <;>
    first
    | (intro hm; simp [resolve_draft_version, h, hm])
    | (intro rev hm; simp [resolve_draft_version, h, hm])

/-- C2 witness: the cases instantiated at concrete oracles — a qualified
draft is returned unchanged even when the oracle would fail, and for the
unqualified draft `"draft-foo"` each oracle outcome yields the stated
result. -/
theorem resolve_draft_version_cases_witness :
    resolve_draft_version (fun _ => .sendError)
      (.Draft "draft-ietf-quic-transport-34") =
      .ok (.Draft "draft-ietf-quic-transport-34") ∧
    resolve_draft_version (fun _ => .sendError) (.Draft "draft-foo") =
      .error .queryFailed ∧
    resolve_draft_version (fun _ => .httpError) (.Draft "draft-foo") =
      .error (.draftNotFound "draft-foo") ∧
    resolve_draft_version (fun _ => .ok ⟨none⟩) (.Draft "draft-foo") =
      .ok (.Draft "draft-foo") ∧
    resolve_draft_version (fun _ => .ok ⟨some "03"⟩) (.Draft "draft-foo") =
      .ok (.Draft "draft-foo-03") := by
  refine ⟨(resolve_draft_version_cases _).2.1 _ (by decide),
    ((resolve_draft_version_cases _).2.2 "draft-foo" (by decide)).1 rfl,
    ((resolve_draft_version_cases _).2.2 "draft-foo" (by decide)).2.1 rfl,
    ((resolve_draft_version_cases _).2.2 "draft-foo" (by decide)).2.2.1 rfl,
    ((resolve_draft_version_cases _).2.2 "draft-foo" (by decide)).2.2.2
      "03" rfl⟩

/-- C1: fetch first resolves the identity (propagating resolution failures
with an empty request log); on a resolved identity it attempts the text URL
— a success returns the content tagged Text with the text URL as the only
request (no hypertext attempt); a text failure triggers the hypertext
attempt, whose success returns the content tagged Hypertext; and when both
fail, the error carries both the text-fetch and the hypertext-fetch
failure. -/
theorem fetch_fallback_policy (meta : String → MetaResponse)
    (net : String → Except String String) (doc : DocumentType) :
    (∀ e, resolve_draft_version meta doc = .error e →
      fetch meta net doc = (.error (.resolveFailed e), [])) ∧
    (∀ d, resolve_draft_version meta doc = .ok d →
      ((∀ c, net (text_url d) = .ok c →
          fetch meta net doc = (.ok (c, .Text), [text_url d])) ∧
        (∀ te c, net (text_url d) = .error te → net (html_url d) = .ok c →
          fetch meta net doc =
            (.ok (c, .Html), [text_url d, html_url d])) ∧
        (∀ te he, net (text_url d) = .error te →
          net (html_url d) = .error he →
          fetch meta net doc =
            (.error (.bothFailed te he), [text_url d, html_url d])))) := by
  refine ⟨fun e he => by simp [fetch, he], fun d hd => ⟨?_, ?_, ?_⟩⟩
  · intro c hc
    simp [fetch, hd, hc]
  · intro te c hte hc
    simp [fetch, hd, hte, hc]
  · intro te he hte hhe
    simp [fetch, hd, hte, hhe]

/-- C1 witness: the fallback policy instantiated at `Published(1)` with
concrete oracles — text success (single request), text failure with
hypertext success, both failing (composite error carrying both messages),
and a resolution failure propagated. -/
theorem fetch_fallback_policy_witness :
    fetch (fun _ => .sendError) (fun _ => .ok "body") (.Rfc 1) =
      (.ok ("body", .Text), [text_url (.Rfc 1)]) ∧
    fetch (fun _ => .sendError)
      (fun u => if u = text_url (.Rfc 1) then .error "text down"
        else .ok "page") (.Rfc 1) =
      (.ok ("page", .Html), [text_url (.Rfc 1), html_url (.Rfc 1)]) ∧
    fetch (fun _ => .sendError)
      (fun u => if u = text_url (.Rfc 1) then .error "text down"
        else .error "html down") (.Rfc 1) =
      (.error (.bothFailed "text down" "html down"),
        [text_url (.Rfc 1), html_url (.Rfc 1)]) ∧
    fetch (fun _ => .sendError) (fun _ => .ok "body") (.Draft "draft-foo") =
      (.error (.resolveFailed .queryFailed), []) := by
  refine
    ⟨((fetch_fallback_policy (fun _ => .sendError) (fun _ => .ok "body")
        (.Rfc 1)).2 (.Rfc 1) rfl).1 "body" rfl,
    ((fetch_fallback_policy (fun _ => .sendError)
        (fun u => if u = text_url (.Rfc 1) then .error "text down"
          else .ok "page")
        (.Rfc 1)).2 (.Rfc 1) rfl).2.1 "text down" "page" rfl rfl,
    ((fetch_fallback_policy (fun _ => .sendError)
        (fun u => if u = text_url (.Rfc 1) then .error "text down"
          else .error "html down")
        (.Rfc 1)).2 (.Rfc 1) rfl).2.2 "text down" "html down" rfl rfl,
    (fetch_fallback_policy (fun _ => .sendError) (fun _ => .ok "body")
        (.Draft "draft-foo")).1 .queryFailed rfl⟩

/-! ### Cache path and directory lemmas -/

lemma fsFind_cons (p : String × FileState) (fs : DocumentsDir) (m : String) :
    fsFind (p :: fs) m = if p.1 = m then some p.2 else fsFind fs m := by
  by_cases h : p.1 = m <;> simp [fsFind, List.find?_cons, h]

lemma fsExists_eq_isSome (fs : DocumentsDir) (m : String) :
    fsExists fs m = (fsFind fs m).isSome := by
  simp [fsExists, fsFind]

lemma fsFind_filter_ne (k m : String) (h : m ≠ k) (fs : DocumentsDir) :
    fsFind (fs.filter (fun p => ¬(p.1 = k))) m = fsFind fs m := by
  induction fs with
  | nil => rfl
  | cons p fs ih =>
    rw [List.filter_cons]
    by_cases hp : p.1 = k
    · have hm : ¬(p.1 = m) := fun he => h (he ▸ hp)
      rw [if_neg (by simpa using hp), ih, fsFind_cons, if_neg hm]
    · rw [if_pos (by simpa using hp), fsFind_cons, fsFind_cons, ih]

lemma fsFind_fsDelete_of_ne (fs : DocumentsDir) (k m : String) (h : m ≠ k) :
    fsFind (fsDelete fs k) m = fsFind fs m :=
  fsFind_filter_ne k m h fs

lemma fsFind_fsDelete_self (fs : DocumentsDir) (k : String) :
    fsFind (fsDelete fs k) k = none := by
  apply fsFind_eq_none_of_forall
  intro p hp
  simpa using (List.mem_filter.mp hp).2

lemma fsFind_fsWrite_of_ne (fs : DocumentsDir) (k m : String) (c : String)
    (h : m ≠ k) : fsFind (fsWrite fs k c) m = fsFind fs m := by
  unfold fsWrite
  rw [fsFind_cons,
    if_neg (show ¬((k, FileState.readable c).1 = m) from fun he => h he.symm)]
  exact fsFind_filter_ne k m h fs

lemma fileName_data (doc : DocumentType) (fmt : Format) :
    (fileName doc fmt).data = doc.name.data ++ '.' :: fmt.extension.data := by
  simp [fileName, String.data_append]

lemma fileName_ne_of_ext_ne (d₁ d₂ : DocumentType) :
    fileName d₁ .Html ≠ fileName d₂ .Text := by
  intro h
  have hd := congrArg String.data h
  rw [fileName_data, fileName_data] at hd
  have hlast := congrArg List.getLast? hd
  rw [List.getLast?_append, List.getLast?_append,
    show ('.' :: (Format.extension .Html).data).getLast? = some 'l' from rfl,
    show ('.' :: (Format.extension .Text).data).getLast? = some 't' from rfl]
      at hlast
  simp at hlast

lemma fileName_ne_of_name_ne (d₁ d₂ : DocumentType)
    (h : DocumentType.name d₁ ≠ DocumentType.name d₂) (f₁ f₂ : Format) :
    fileName d₁ f₁ ≠ fileName d₂ f₂ := by
  intro he
  cases f₁ <;> cases f₂
  · have hd := congrArg String.data he
    rw [fileName_data, fileName_data] at hd
    exact h (String.ext (List.append_cancel_right hd))
  · exact fileName_ne_of_ext_ne d₂ d₁ he.symm
  · exact fileName_ne_of_ext_ne d₁ d₂ he
  · have hd := congrArg String.data he
    rw [fileName_data, fileName_data] at hd
    exact h (String.ext (List.append_cancel_right hd))

lemma fileName_html_ne_text (doc : DocumentType) :
    fileName doc .Html ≠ fileName doc .Text :=
  fileName_ne_of_ext_ne doc doc

lemma fsDelete_of_not_found (fs : DocumentsDir) (k : String)
    (h : fsFind fs k = none) : fsDelete fs k = fs := by
  unfold fsDelete
  rw [List.filter_eq_self]
  intro p hp
  have hf : List.find? (fun p => p.1 = k) fs = none := by
    simpa [fsFind] using h
  have := List.find?_eq_none.mp hf p hp
  simpa using this

lemma fsExists_eq_false_iff (fs : DocumentsDir) (k : String) :
    fsExists fs k = false ↔ fsFind fs k = none := by
  rw [fsExists_eq_isSome]
  cases fsFind fs k <;> simp

lemma ite_fsDelete (gs : DocumentsDir) (k : String) :
    (if fsExists gs k = true then fsDelete gs k else gs) = fsDelete gs k := by
  by_cases e : fsExists gs k = true
  · rw [if_pos e]
  · have e' : fsExists gs k = false := by
      cases hb : fsExists gs k
      · rfl
      · exact absurd hb e
    rw [if_neg e,
      fsDelete_of_not_found gs k ((fsExists_eq_false_iff gs k).mp e')]

/-- `remove` always leaves the directory with both entries deleted, and
reports whether either existed beforehand. -/
lemma remove_eq (fs : DocumentsDir) (doc : DocumentType) :
    remove fs doc =
      (fsDelete (fsDelete fs (fileName doc .Html)) (fileName doc .Text),
        fsExists fs (fileName doc .Html) ||
          fsExists fs (fileName doc .Text)) := by
  have hne := fileName_html_ne_text doc
  have hpres : fsExists (fsDelete fs (fileName doc .Html))
      (fileName doc .Text) = fsExists fs (fileName doc .Text) := by
    rw [fsExists_eq_isSome, fsExists_eq_isSome,
      fsFind_fsDelete_of_ne fs _ _ (Ne.symm hne)]
  show (let htmlName := fileName doc .Html
        let textName := fileName doc .Text
        let removedHtml := fsExists fs htmlName
        let fs₁ := if removedHtml then fsDelete fs htmlName else fs
        let removedText := fsExists fs₁ textName
        let fs₂ := if removedText then fsDelete fs₁ textName else fs₁
        (fs₂, removedHtml || removedText)) = _
  simp only []
  rw [ite_fsDelete fs (fileName doc .Html),
    ite_fsDelete (fsDelete fs (fileName doc .Html)) (fileName doc .Text),
    hpres]

/-- C8: `remove` returns true iff the HTML entry or the text entry existed;
afterwards both representations are absent (the files no longer exist, so
lookups return absent), and a second remove returns false — removing when
nothing is stored returns false by the same characterization. -/
theorem remove_semantics (fs : DocumentsDir) (doc : DocumentType) :
    ((remove fs doc).2 = true ↔
      fsExists fs (fileName doc .Html) = true ∨
      fsExists fs (fileName doc .Text) = true) ∧
    (∀ fmt, fsExists (remove fs doc).1 (fileName doc fmt) = false ∧
      get_document (remove fs doc).1 doc fmt = none) ∧
    (remove (remove fs doc).1 doc).2 = false := by
  have hne := fileName_html_ne_text doc
  have habs : ∀ fmt, fsFind (remove fs doc).1 (fileName doc fmt) = none := by
    intro fmt
    rw [remove_eq]
    cases fmt
    · exact fsFind_fsDelete_self _ _
    · rw [fsFind_fsDelete_of_ne _ _ _ hne]
      exact fsFind_fsDelete_self _ _
  refine ⟨by rw [remove_eq]; simp, fun fmt => ⟨?_, ?_⟩, ?_⟩
  · rw [fsExists_eq_false_iff]
    exact habs fmt
  · exact get_document_eq_none_of_fsFind _ doc fmt (habs fmt)
  · rw [remove_eq ((remove fs doc).1) doc]
    simp only [Bool.or_eq_false_iff]
    constructor <;> rw [fsExists_eq_false_iff] <;> [exact habs .Html;
      exact habs .Text]

/-- C8 witness: the semantics applied at a directory holding only the HTML
entry of `Published(9000)` — remove reports true, and at the emptied
directory a second remove reports false. -/
theorem remove_semantics_witness :
    (remove [("rfc9000.html", FileState.readable "x")] (.Rfc 9000)).2 =
      true ∧
    (remove [] (.Rfc 9000)).2 = false := by
  constructor
  · exact (remove_semantics [("rfc9000.html", FileState.readable "x")]
      (.Rfc 9000)).1.mpr (Or.inl (by decide))
  · have h := (remove_semantics [] (.Rfc 9000)).1
    cases hb : (remove ([] : DocumentsDir) (.Rfc 9000)).2
    · rfl
    · rcases h.mp hb with hc | hc <;> exact absurd hc (by decide)

/-! ### Canonical-name injectivity and its one exception -/

lemma name_rfc_inj {n m : Nat}
    (h : ("rfc" ++ natStr n : String) = "rfc" ++ natStr m) : n = m := by
  have hd := congrArg String.data h
  rw [String.data_append, String.data_append] at hd
  exact natStr_injective (String.ext (List.append_cancel_left hd))

lemma get_document_congr (fs gs : DocumentsDir) (doc : DocumentType)
    (fmt : Format)
    (h : fsFind fs (fileName doc fmt) = fsFind gs (fileName doc fmt)) :
    get_document fs doc fmt = get_document gs doc fmt := by
  unfold get_document
  rw [h]

/-- C5 counterexample: `Published(9000)` and `Draft "rfc9000"` are distinct
identities, yet under the spec's canonical-name rule (`rfc<n>` versus the
draft name verbatim) they map to the same cache file path for the same
representation. -/
theorem document_path_collision :
    DocumentType.Rfc 9000 ≠ DocumentType.Draft "rfc9000" ∧
    document_path "cache" (.Rfc 9000) .Text =
      document_path "cache" (.Draft "rfc9000") .Text := by
  constructor
  · decide
  · decide

/-- C5 amended: canonical names of two distinct identities coincide exactly
when one is `Published(n)` and the other the draft literally named
`rfc<n>`; whenever the canonical names differ, the paths are distinct for
every representation, and storing for or removing one identity leaves every
lookup of the other unchanged. -/
theorem document_path_separation (d₁ d₂ : DocumentType) (hne : d₁ ≠ d₂) :
    (DocumentType.name d₁ = DocumentType.name d₂ ↔
      (∃ n, d₁ = .Rfc n ∧ d₂ = .Draft ("rfc" ++ natStr n)) ∨
      (∃ n, d₂ = .Rfc n ∧ d₁ = .Draft ("rfc" ++ natStr n))) ∧
    (DocumentType.name d₁ ≠ DocumentType.name d₂ →
      ((∀ cacheDir fmt,
          document_path cacheDir d₁ fmt ≠ document_path cacheDir d₂ fmt) ∧
        (∀ fs fmt fmt' c,
          get_document (store_document fs d₁ fmt c) d₂ fmt' =
            get_document fs d₂ fmt') ∧
        (∀ fs fmt',
          get_document (remove fs d₁).1 d₂ fmt' =
            get_document fs d₂ fmt'))) := by
  constructor
  · cases d₁ with
    | Rfc n =>
      cases d₂ with
      | Rfc m =>
        constructor
        · intro h
          exact absurd (by rw [name_rfc_inj h]) hne
        · rintro (⟨n', h₁, h₂⟩ | ⟨n', h₁, h₂⟩) <;> exact absurd h₂ (by simp)
      | Draft b =>
        constructor
        · intro h
          exact Or.inl ⟨n, rfl, congrArg DocumentType.Draft h.symm⟩
        · rintro (⟨n', h₁, h₂⟩ | ⟨n', h₁, h₂⟩)
          · have hb : b = "rfc" ++ natStr n' := by simpa using h₂
            have hn : n = n' := by simpa using h₁
            subst hb
            subst hn
            rfl
          · exact absurd h₁ (by simp)
    | Draft a =>
      cases d₂ with
      | Rfc m =>
        constructor
        · intro h
          exact Or.inr ⟨m, rfl, congrArg DocumentType.Draft h⟩
        · rintro (⟨n', h₁, h₂⟩ | ⟨n', h₁, h₂⟩)
          · exact absurd h₁ (by simp)
          · have ha : a = "rfc" ++ natStr n' := by simpa using h₂
            have hm : m = n' := by simpa using h₁
            subst ha
            subst hm
            rfl
      | Draft b =>
        constructor
        · intro h
          exact absurd (by rw [show a = b from h]) hne
        · rintro (⟨n', h₁, h₂⟩ | ⟨n', h₁, h₂⟩) <;> exact absurd h₁ (by simp)
  · intro hname
    refine ⟨?_, ?_, ?_⟩
    · intro cacheDir fmt hpath
      have hd := congrArg String.data hpath
      unfold document_path at hd
      rw [String.data_append, String.data_append] at hd
      exact fileName_ne_of_name_ne d₁ d₂ hname fmt fmt
        (String.ext (List.append_cancel_left hd))
    · intro fs fmt fmt' c
      exact get_document_congr _ _ d₂ fmt'
        (fsFind_fsWrite_of_ne fs (fileName d₁ fmt) (fileName d₂ fmt') c
          (fileName_ne_of_name_ne d₂ d₁ (fun he => hname he.symm) fmt' fmt))
    · intro fs fmt'
      apply get_document_congr _ _ d₂ fmt'
      have h1 : (remove fs d₁).1 =
          fsDelete (fsDelete fs (fileName d₁ .Html)) (fileName d₁ .Text) :=
        congrArg Prod.fst (remove_eq fs d₁)
      rw [h1,
        fsFind_fsDelete_of_ne _ _ _
          (fileName_ne_of_name_ne d₂ d₁ (fun he => hname he.symm) fmt' .Text),
        fsFind_fsDelete_of_ne _ _ _
          (fileName_ne_of_name_ne d₂ d₁ (fun he => hname he.symm) fmt' .Html)]

/-- C5 witness: the separation applied at the distinct Published identities
9000 and 8200 — their Text paths differ, and storing one does not disturb a
lookup of the other. -/
theorem document_path_separation_witness :
    document_path "cache" (.Rfc 9000) .Text ≠
      document_path "cache" (.Rfc 8200) .Text ∧
    get_document (store_document [] (.Rfc 9000) .Text "a") (.Rfc 8200)
      .Text = get_document ([] : DocumentsDir) (.Rfc 8200) .Text := by
  refine ⟨((document_path_separation (.Rfc 9000) (.Rfc 8200) (by decide)).2
      (by decide)).1 "cache" .Text,
    ((document_path_separation (.Rfc 9000) (.Rfc 8200) (by decide)).2
      (by decide)).2.1 [] .Text .Text "a"⟩

/-! ### Enumeration lemmas -/

lemma listStep_eq_of_none (acc : List DocumentType) (p : String × FileState)
    (h : stemParse p.1 = none) : listStep acc p = acc := by
  unfold listStep
  rw [h]

lemma listStep_eq_of_some (acc : List DocumentType) (p : String × FileState)
    (d' : DocumentType) (h : stemParse p.1 = some d') :
    listStep acc p = if acc.contains d' then acc else acc ++ [d'] := by
  unfold listStep
  rw [h]

lemma mem_listStep (acc : List DocumentType) (p : String × FileState)
    (d : DocumentType) :
    d ∈ listStep acc p ↔ d ∈ acc ∨ stemParse p.1 = some d := by
  cases h : stemParse p.1 with
  | none =>
    rw [listStep_eq_of_none acc p h]
    simp
  | some d' =>
    rw [listStep_eq_of_some acc p d' h]
    by_cases hc : acc.contains d'
    · have hmem : d' ∈ acc := by simpa using hc
      rw [if_pos hc]
      constructor
      · exact Or.inl
      · rintro (hd | hd)
        · exact hd
        · exact (Option.some_inj.mp hd) ▸ hmem
    · rw [if_neg hc]
      simp only [List.mem_append, List.mem_singleton, Option.some_inj]
      constructor
      · rintro (hd | rfl)
        · exact Or.inl hd
        · exact Or.inr rfl
      · rintro (hd | rfl)
        · exact Or.inl hd
        · exact Or.inr rfl

lemma nodup_listStep (acc : List DocumentType) (p : String × FileState)
    (h : acc.Nodup) : (listStep acc p).Nodup := by
  cases hs : stemParse p.1 with
  | none =>
    rw [listStep_eq_of_none acc p hs]
    exact h
  | some d' =>
    rw [listStep_eq_of_some acc p d' hs]
    by_cases hc : acc.contains d'
    · rw [if_pos hc]
      exact h
    · rw [if_neg hc]
      have hd' : d' ∉ acc := by simpa using hc
      simp [List.nodup_append, h, hd']

lemma mem_foldl_listStep (fs : DocumentsDir) :
    ∀ (acc : List DocumentType) (d : DocumentType),
      d ∈ fs.foldl listStep acc ↔
        d ∈ acc ∨ ∃ p ∈ fs, stemParse p.1 = some d := by
  induction fs with
  | nil =>
    intro acc d
    simp
  | cons q fs ih =>
    intro acc d
    rw [List.foldl_cons, ih, mem_listStep]
    constructor
    · rintro ((hd | hd) | ⟨p, hp, hsp⟩)
      · exact Or.inl hd
      · exact Or.inr ⟨q, List.mem_cons_self q fs, hd⟩
      · exact Or.inr ⟨p, List.mem_cons_of_mem q hp, hsp⟩
    · rintro (hd | ⟨p, hp, hsp⟩)
      · exact Or.inl (Or.inl hd)
      · rcases List.mem_cons.mp hp with rfl | hp'
        · exact Or.inl (Or.inr hsp)
        · exact Or.inr ⟨p, hp', hsp⟩

lemma nodup_foldl_listStep (fs : DocumentsDir) :
    ∀ acc : List DocumentType, acc.Nodup → (fs.foldl listStep acc).Nodup := by
  induction fs with
  | nil => intro acc h; exact h
  | cons q fs ih => intro acc h; exact ih _ (nodup_listStep acc q h)

lemma fileStem_of_ne_dot (nm ext : String) (c : Char) (cs : List Char)
    (hnm : nm.data = c :: cs) (hc : ¬(c = '.')) (hext : '.' ∉ ext.data) :
    fileStem (nm ++ "." ++ ext) = some nm := by
  have hdata : (nm ++ "." ++ ext).data = c :: (cs ++ '.' :: ext.data) := by
    simp [String.data_append, hnm]
  have hbl : beforeLast '.' (c :: (cs ++ '.' :: ext.data)) =
      some (c :: cs) := by
    rw [show c :: (cs ++ '.' :: ext.data) = (c :: cs) ++ '.' :: ext.data from
      rfl]
    exact beforeLast_append '.' ext.data hext (c :: cs)
  unfold fileStem
  rw [hdata]
  simp only [hc, if_false, hbl]
  rw [← hnm]

lemma parse_draft_name (nm : String) (rest : List Char)
    (h : nm.data = 'd' :: 'r' :: 'a' :: 'f' :: 't' :: rest) :
    DocumentType.parse nm = some (.Draft nm) := by
  unfold DocumentType.parse
  rw [h]
  rfl

lemma stemParse_draft_fileName (nm : String) (rest : List Char)
    (h : nm.data = 'd' :: 'r' :: 'a' :: 'f' :: 't' :: rest) (fmt : Format) :
    stemParse (fileName (.Draft nm) fmt) = some (.Draft nm) := by
  have hext : '.' ∉ (Format.extension fmt).data := by
    cases fmt <;> decide
  have hstem : fileStem (fileName (.Draft nm) fmt) = some nm := by
    have : fileName (.Draft nm) fmt = nm ++ "." ++ Format.extension fmt := rfl
    rw [this]
    exact fileStem_of_ne_dot nm (Format.extension fmt) 'd'
      ('r' :: 'a' :: 'f' :: 't' :: rest) h (by decide) hext
  unfold stemParse
  rw [hstem]
  exact parse_draft_name nm rest h

/-- C9: enumeration lists exactly the identities whose file-base-name parses
— each listed once (no duplicates; the two representations of one identity
collapse), files whose stem does not parse contribute nothing, and a stored
Draft (its name starting with `draft`) appears with its exact name
preserved. -/
theorem list_cached_enumeration (fs : DocumentsDir) :
    (list_cached fs).Nodup ∧
    (∀ d, d ∈ list_cached fs ↔ ∃ p ∈ fs, stemParse p.1 = some d) ∧
    (∀ nm rest fmt content,
      nm.data = 'd' :: 'r' :: 'a' :: 'f' :: 't' :: rest →
      DocumentType.Draft nm ∈
        list_cached (store_document fs (.Draft nm) fmt content)) := by
  refine ⟨nodup_foldl_listStep fs [] List.nodup_nil, fun d => ?_, ?_⟩
  · rw [list_cached, mem_foldl_listStep]
    simp
  · intro nm rest fmt content h
    rw [list_cached, mem_foldl_listStep]
    refine Or.inr ⟨(fileName (.Draft nm) fmt, .readable content), ?_, ?_⟩
    · exact List.mem_cons_self _ _
    · exact stemParse_draft_fileName nm rest h fmt

/-- C9 witness: storing the draft `"draft-foo"` as text makes exactly that
draft appear in the enumeration of the previously empty cache. -/
theorem list_cached_enumeration_witness :
    DocumentType.Draft "draft-foo" ∈
      list_cached (store_document [] (.Draft "draft-foo") .Text "body") :=
  (list_cached_enumeration []).2.2 "draft-foo"
    ['-', 'f', 'o', 'o'] .Text "body" rfl

end Rfc
